import Mathlib

/-!
Verification development for the quick-read document pipeline.

The persisted data model (documents, chunks, embeddings) is translated from
src/backend/schema.sql.  The client-side handlers are translated from the
React components under src (DocumentInput.jsx, AskQuestions.jsx, and the
top-level app component).  The backend request handlers (ingest, remove,
ensure_embedded, top_k, retry policy) are not part of the sources under src,
so they are modelled from the specification text, as marked in the doc
comments of the corresponding definitions.

Text is represented as a list of characters; record columns that no claim
mentions (timestamps, sizes, JSON metadata) are omitted.
-/

/-- Row of the documents table (schema.sql): file_id is the primary key,
source_type is constrained by CHECK to pdf or url, content_hash detects
duplicates.  The SHA-256 hash is modelled by the normalized text itself,
which is a faithful fingerprint in a model without hash collisions. -/
structure Document where
  file_id : String
  original_filename : String
  source_type : String
  source_path : String
  content_hash : List Char
  deriving Repr, DecidableEq

/-- Row of the chunks table (schema.sql): chunk_id is the primary key (a
UUID, modelled as the pair of owning file_id and chunk_index, which the
UNIQUE(file_id, chunk_index) constraint makes a faithful key), file_id is a
foreign key into documents with ON DELETE CASCADE. -/
structure Chunk where
  chunk_id : String × Nat
  file_id : String
  chunk_index : Nat
  content : List Char
  deriving Repr, DecidableEq

/-- Row of the embeddings table (schema.sql): chunk_id is both the primary
key and a foreign key into chunks with ON DELETE CASCADE, so a chunk has at
most one embedding row. -/
structure EmbeddingRow where
  chunk_id : String × Nat
  vector : List ℚ
  model_name : String
  embedding_dim : Nat
  deriving Repr, DecidableEq

/-- The persisted relational state of one session scope: the three tables of
schema.sql. -/
structure Store where
  documents : List Document
  chunks : List Chunk
  embeddings : List EmbeddingRow
  deriving Repr, DecidableEq

/-- Session state of spec section 3: the store plus the mutable
active_file_id and cached summary. -/
structure SessionState where
  store : Store
  active_file_id : Option String
  summary : Option String
  deriving Repr, DecidableEq

/-- Input to ingestion: the source descriptor plus the extracted text, as
handed over by the out-of-scope extraction engines. -/
structure Source where
  file_id : String
  original_filename : String
  source_type : String
  source_path : String
  text : List Char
  deriving Repr, DecidableEq

inductive IngestError where
  | UnsupportedSource
  | ExtractionEmpty
  deriving Repr, DecidableEq

inductive AskError where
  | NoActiveDocument
  deriving Repr, DecidableEq

/-- True when the chunk with the given key belongs to the document being
deleted, so its embeddings row dies with it. -/
def chunkIsDead (s : Store) (fid : String) (cid : String × Nat) : Bool :=
  s.chunks.any (fun c => c.file_id == fid && c.chunk_id == cid)

/-- Deleting a documents row with the cascade semantics of schema.sql: the
chunks rows referencing the file_id are removed by their ON DELETE CASCADE
foreign key, and the embeddings rows referencing those chunks are removed by
their own ON DELETE CASCADE foreign key, all in the same transition. -/
def cascadeDeleteDocument (s : Store) (fid : String) : Store :=
  { documents := s.documents.filter (fun d => !(d.file_id == fid)),
    chunks := s.chunks.filter (fun c => !(c.file_id == fid)),
    embeddings := s.embeddings.filter (fun e => !(chunkIsDead s fid e.chunk_id)) }

/-- True when the text is empty or consists only of whitespace. -/
def isWhitespaceOnly (t : List Char) : Bool := t.all Char.isWhitespace

/-- Modelled from the spec: the Content Normalizer of section 4.1 is not
under src.  It validates the source type against the CHECK constraint of
schema.sql, rejects empty or whitespace-only text with ExtractionEmpty, and
otherwise produces the Document record with its content hash. -/
def normalizeSource (s : Source) : Except IngestError Document :=
  if s.source_type == "pdf" || s.source_type == "url" then
    if isWhitespaceOnly s.text then .error .ExtractionEmpty
    else .ok { file_id := s.file_id, original_filename := s.original_filename,
               source_type := s.source_type, source_path := s.source_path,
               content_hash := s.text }
  else .error .UnsupportedSource

/-- Upper bound on chunk length, a fixed configuration value of the chunker
in section 4.2 of the spec. -/
def maxChunkChars : Nat := 1000

/-- Helper for chunkText, with explicit fuel so the recursion is
structural. -/
def chunkTextAux : Nat → List Char → List (List Char)
  | 0, _ => []
  | _, [] => []
  | fuel + 1, t => t.take maxChunkChars :: chunkTextAux fuel (t.drop maxChunkChars)

/-- Modelled from the spec: the Chunker of section 4.2 is not under src.  It
splits the normalized text into an ordered sequence of bounded chunks; text
no longer than the bound yields exactly one chunk. -/
def chunkText (t : List Char) : List (List Char) := chunkTextAux t.length t

/-- Builds the chunks rows for a document, assigning the 0-based contiguous
chunk_index values in order. -/
def mkChunks (fid : String) (texts : List (List Char)) : List Chunk :=
  texts.enum.map (fun p =>
    { chunk_id := (fid, p.1), file_id := fid, chunk_index := p.1, content := p.2 })

/-- True when the active document of the session carries the same content
hash as the given freshly normalized document. -/
def activeHashMatches (st : SessionState) (d : Document) : Bool :=
  match st.active_file_id with
  | none => false
  | some fid => st.store.documents.any
      (fun old => old.file_id == fid && old.content_hash == d.content_hash)

/-- The store after deleting the currently active document, if any: the
destructive-replace step shared by ingest and remove (section 4.6). -/
def baseStore (st : SessionState) : Store :=
  match st.active_file_id with
  | some old => cascadeDeleteDocument st.store old
  | none => st.store

/-- Modelled from the spec: the ingest transition of section 4.6 is not
under src.  It normalizes the source, short-circuits to reuse when the same
content is already active (section 4.1), otherwise cascade-deletes the
previously active document, persists the new Document and Chunk rows,
establishes active_file_id, and clears the cached summary, all before the
successful result is returned. -/
def ingest (st : SessionState) (s : Source) : Except IngestError SessionState :=
  match normalizeSource s with
  | .error e => .error e
  | .ok doc =>
    if activeHashMatches st doc then
      .ok st
    else
      .ok { store := { documents := (baseStore st).documents ++ [doc],
                       chunks := (baseStore st).chunks
                         ++ mkChunks doc.file_id (chunkText s.text),
                       embeddings := (baseStore st).embeddings },
            active_file_id := some doc.file_id,
            summary := none }

/-- Modelled from the spec: the remove transition of section 4.6 is not
under src.  Any state goes to Empty: the Document cascade is deleted, the
active file reference and the cached summary are cleared. -/
def removeOp (st : SessionState) : SessionState :=
  { store := baseStore st,
    active_file_id := none,
    summary := none }

/-- Modelled from the spec: the summarize transition of section 4.6 is not
under src.  It requires an active document and caches the produced summary
text. -/
def summarizeOp (st : SessionState) (result : String) : Except AskError SessionState :=
  match st.active_file_id with
  | none => .error .NoActiveDocument
  | some _ => .ok { st with summary := some result }

/-- True when the embeddings table already holds a row for the chunk. -/
def hasEmbedding (s : Store) (cid : String × Nat) : Bool :=
  s.embeddings.any (fun e => e.chunk_id == cid)

/-- Embedding row produced for a chunk, with the model name and dimension
defaults of schema.sql. -/
def mkEmbeddingRow (c : Chunk) (v : List ℚ) : EmbeddingRow :=
  { chunk_id := c.chunk_id, vector := v,
    model_name := "textembedding-gecko", embedding_dim := 768 }

/-- The chunks of the given document still lacking an embedding row. -/
def missingChunks (st : SessionState) (fid : String) : List Chunk :=
  st.store.chunks.filter
    (fun c => c.file_id == fid && !(hasEmbedding st.store c.chunk_id))

/-- The embedding rows obtained by running the external embedding model,
given as an oracle that may fail per chunk, over a list of chunks; failed
chunks are skipped. -/
def producedRows (oracle : Chunk → Option (List ℚ)) (l : List Chunk) :
    List EmbeddingRow :=
  l.filterMap (fun c => (oracle c).map (fun v => mkEmbeddingRow c v))

/-- Modelled from the spec: the Embedding Coordinator of section 4.3 is not
under src.  Only the chunks of the active document that lack an embedding
are processed; the external model is an oracle that may fail per chunk, and
a failed chunk is skipped while earlier results remain committed.  The
second component reports how many chunks remain unembedded. -/
def ensureEmbedded (st : SessionState) (oracle : Chunk → Option (List ℚ)) :
    SessionState × Nat :=
  match st.active_file_id with
  | none => (st, 0)
  | some fid =>
    ({ st with store :=
        { st.store with embeddings := st.store.embeddings
            ++ producedRows oracle (missingChunks st fid) } },
     (missingChunks st fid).length
       - (producedRows oracle (missingChunks st fid)).length)

/-- The empty session: no rows, no active file, no cached summary. -/
def initState : SessionState :=
  { store := { documents := [], chunks := [], embeddings := [] },
    active_file_id := none,
    summary := none }

/-- States of the persisted store and session reachable through the
lifecycle transitions of the spec, starting from the empty session. -/
inductive Reachable : SessionState → Prop where
  | init : Reachable initState
  | ingest_ok {st st' : SessionState} {s : Source} :
      Reachable st → ingest st s = .ok st' → Reachable st'
  | remove_step {st : SessionState} : Reachable st → Reachable (removeOp st)
  | embed_step {st : SessionState} (oracle : Chunk → Option (List ℚ)) :
      Reachable st → Reachable (ensureEmbedded st oracle).1
  | summarize_ok {st st' : SessionState} {txt : String} :
      Reachable st → summarizeOp st txt = .ok st' → Reachable st'

/-- The structural invariant every reachable state satisfies: the store
holds the rows of at most the one active document, chunk indices form the
contiguous 0-based range, chunk keys are determined by owner and index, and
embeddings are keyed uniquely by existing chunks. -/
structure StoreInv (st : SessionState) : Prop where
  docs : st.store.documents.map Document.file_id = st.active_file_id.toList
  dtypes : ∀ d ∈ st.store.documents, d.source_type = "pdf" ∨ d.source_type = "url"
  cowner : ∀ c ∈ st.store.chunks, st.active_file_id = some c.file_id
  cidx : st.store.chunks.map Chunk.chunk_index = List.range st.store.chunks.length
  cid : ∀ c ∈ st.store.chunks, c.chunk_id = (c.file_id, c.chunk_index)
  enodup : (st.store.embeddings.map EmbeddingRow.chunk_id).Nodup
  efk : ∀ e ∈ st.store.embeddings, ∃ c ∈ st.store.chunks, c.chunk_id = e.chunk_id

theorem storeInv_init : StoreInv initState := by
  constructor <;> simp [initState, Option.toList]

/-- Under the invariant, every row of the store belongs to the active
document, so cascade-deleting it empties the whole store. -/
theorem cascade_on_active_empties {st : SessionState} {fid : String}
    (hinv : StoreInv st) (hact : st.active_file_id = some fid) :
    cascadeDeleteDocument st.store fid = { documents := [], chunks := [], embeddings := [] } := by
  have hdocs : ∀ d ∈ st.store.documents, d.file_id = fid := by
    intro d hd
    have : d.file_id ∈ st.store.documents.map Document.file_id := List.mem_map_of_mem _ hd
    rw [hinv.docs, hact] at this
    simpa [Option.toList] using this
  have hchunks : ∀ c ∈ st.store.chunks, c.file_id = fid := by
    intro c hc
    have := hinv.cowner c hc
    rw [hact] at this
    exact (Option.some.injEq _ _).mp this.symm
  unfold cascadeDeleteDocument
  refine Store.mk.injEq _ _ _ _ _ _ |>.mpr ⟨?_, ?_, ?_⟩
  · apply List.filter_eq_nil_iff.mpr
    intro d hd
    simp [hdocs d hd]
  · apply List.filter_eq_nil_iff.mpr
    intro c hc
    simp [hchunks c hc]
  · apply List.filter_eq_nil_iff.mpr
    intro e he
    obtain ⟨c, hc, hcid⟩ := hinv.efk e he
    have hdead : chunkIsDead st.store fid e.chunk_id = true :=
      List.any_eq_true.mpr ⟨c, hc, by simp [hchunks c hc, hcid]⟩
    simp [hdead]

/-- Under the invariant, a session with no active file has an empty store. -/
theorem store_empty_of_no_active {st : SessionState}
    (hinv : StoreInv st) (hact : st.active_file_id = none) :
    st.store = { documents := [], chunks := [], embeddings := [] } := by
  have h0 : st.store.documents.map Document.file_id = [] := by
    have := hinv.docs
    rw [hact] at this
    simpa using this
  have hdocs : st.store.documents = [] := List.map_eq_nil_iff.mp h0
  have hchunks : st.store.chunks = [] := by
    rcases h : st.store.chunks with _ | ⟨c, rest⟩
    · rfl
    · exfalso
      have := hinv.cowner c (by rw [h]; exact List.mem_cons_self _ _)
      rw [hact] at this
      exact Option.noConfusion this
  have hemb : st.store.embeddings = [] := by
    rcases h : st.store.embeddings with _ | ⟨e, rest⟩
    · rfl
    · exfalso
      obtain ⟨c, hc, _⟩ := hinv.efk e (by rw [h]; exact List.mem_cons_self _ _)
      rw [hchunks] at hc
      exact List.not_mem_nil _ hc
  cases hst : st.store
  simp_all

/-- A session whose store is empty and whose active file is cleared
satisfies the structural invariant. -/
theorem storeInv_of_empty {st : SessionState}
    (hs : st.store = { documents := [], chunks := [], embeddings := [] })
    (ha : st.active_file_id = none) : StoreInv st := by
  constructor <;> simp [hs, ha, Option.toList]


/-- A successfully normalized document carries the fields of the source and
a source type allowed by the CHECK constraint. -/
theorem normalizeSource_ok {s : Source} {doc : Document}
    (h : normalizeSource s = .ok doc) :
    doc.file_id = s.file_id ∧ doc.source_type = s.source_type ∧
      (s.source_type = "pdf" ∨ s.source_type = "url") := by
  unfold normalizeSource at h
  by_cases ht : s.source_type == "pdf" || s.source_type == "url"
  · rw [if_pos ht] at h
    by_cases hw : isWhitespaceOnly s.text
    · rw [if_pos hw] at h
      exact absurd h (by simp)
    · rw [if_neg hw] at h
      injection h with h
      subst h
      refine ⟨rfl, rfl, ?_⟩
      rcases Bool.or_eq_true .. |>.mp ht with h' | h' <;>
        simp only [beq_iff_eq] at h' <;> [left; right] <;> exact h'
  · rw [if_neg ht] at h
    exact absurd h (by simp)

theorem mkChunks_map_index (fid : String) (ts : List (List Char)) :
    (mkChunks fid ts).map Chunk.chunk_index = List.range ts.length := by
  unfold mkChunks
  rw [List.map_map]
  exact List.enum_map_fst ts

theorem mkChunks_length (fid : String) (ts : List (List Char)) :
    (mkChunks fid ts).length = ts.length := by
  simp [mkChunks]

theorem mkChunks_mem {fid : String} {ts : List (List Char)} {c : Chunk}
    (h : c ∈ mkChunks fid ts) :
    c.file_id = fid ∧ c.chunk_id = (fid, c.chunk_index) := by
  unfold mkChunks at h
  rcases List.mem_map.mp h with ⟨p, _, rfl⟩
  exact ⟨rfl, rfl⟩

theorem baseStore_empty {st : SessionState} (hinv : StoreInv st) :
    baseStore st = { documents := [], chunks := [], embeddings := [] } := by
  unfold baseStore
  rcases hact : st.active_file_id with _ | old
  · exact store_empty_of_no_active hinv hact
  · exact cascade_on_active_empties hinv hact

theorem storeInv_removeOp {st : SessionState} (hinv : StoreInv st) :
    StoreInv (removeOp st) :=
  storeInv_of_empty (baseStore_empty hinv) rfl

theorem storeInv_ingest {st st' : SessionState} {s : Source}
    (hinv : StoreInv st) (h : ingest st s = .ok st') : StoreInv st' := by
  rcases hn : normalizeSource s with e | doc
  · simp only [ingest, hn] at h
    exact absurd h (by simp)
  · simp only [ingest, hn] at h
    by_cases hm : activeHashMatches st doc
    · rw [if_pos hm] at h
      injection h with h
      subst h
      exact hinv
    · rw [if_neg hm] at h
      injection h with h
      subst h
      obtain ⟨hfid, htype, hok⟩ := normalizeSource_ok hn
      rw [baseStore_empty hinv]
      constructor
      · simp [Option.toList]
      · intro d hd
        simp only [List.nil_append, List.mem_singleton] at hd
        subst hd
        rw [htype]
        exact hok
      · intro c hc
        simp only [List.nil_append] at hc
        rw [(mkChunks_mem hc).1]
      · simp only [List.nil_append]
        rw [mkChunks_map_index, mkChunks_length]
      · intro c hc
        simp only [List.nil_append] at hc
        obtain ⟨h1, h2⟩ := mkChunks_mem hc
        rw [h2, h1]
      · simp
      · intro e he
        simp at he

theorem storeInv_summarize {st st' : SessionState} {txt : String}
    (hinv : StoreInv st) (h : summarizeOp st txt = .ok st') : StoreInv st' := by
  unfold summarizeOp at h
  rcases hact : st.active_file_id with _ | fid
  · rw [hact] at h
    exact absurd h (by simp)
  · rw [hact] at h
    injection h with h
    subst h
    refine ⟨?_, hinv.dtypes, ?_, hinv.cidx, hinv.cid, hinv.enodup, hinv.efk⟩
    · have := hinv.docs
      rw [hact] at this
      exact this
    · intro c hc
      have := hinv.cowner c hc
      rw [hact] at this
      exact this

theorem chunk_ids_nodup {st : SessionState} (hinv : StoreInv st) :
    (st.store.chunks.map Chunk.chunk_id).Nodup := by
  have h1 : (st.store.chunks.map Chunk.chunk_id).map Prod.snd
      = st.store.chunks.map Chunk.chunk_index := by
    rw [List.map_map]
    exact List.map_congr_left (fun c hc => by
      simp only [Function.comp_apply, hinv.cid c hc])
  have h2 : ((st.store.chunks.map Chunk.chunk_id).map Prod.snd).Nodup := by
    rw [h1, hinv.cidx]
    exact List.nodup_range _
  exact h2.of_map _

theorem producedRows_ids_sublist (oracle : Chunk → Option (List ℚ)) :
    ∀ l : List Chunk,
      ((producedRows oracle l).map EmbeddingRow.chunk_id).Sublist
        (l.map Chunk.chunk_id)
  | [] => by simp [producedRows]
  | c :: l => by
    unfold producedRows
    rcases ho : oracle c with _ | v
    · simp only [List.filterMap_cons, ho, Option.map_none', List.map_cons]
      exact (producedRows_ids_sublist oracle l).cons _
    · simp only [List.filterMap_cons, ho, Option.map_some', List.map_cons,
        mkEmbeddingRow]
      exact (producedRows_ids_sublist oracle l).cons₂ _

theorem producedRows_mem {oracle : Chunk → Option (List ℚ)} {l : List Chunk}
    {e : EmbeddingRow} (h : e ∈ producedRows oracle l) :
    ∃ c ∈ l, e.chunk_id = c.chunk_id := by
  unfold producedRows at h
  rcases List.mem_filterMap.mp h with ⟨c, hc, hmap⟩
  rcases ho : oracle c with _ | v
  · rw [ho] at hmap
    exact absurd hmap (by simp)
  · rw [ho] at hmap
    simp only [Option.map_some', Option.some.injEq] at hmap
    refine ⟨c, hc, ?_⟩
    rw [← hmap]
    rfl

theorem storeInv_ensureEmbedded {st : SessionState}
    (oracle : Chunk → Option (List ℚ)) (hinv : StoreInv st) :
    StoreInv (ensureEmbedded st oracle).1 := by
  rcases hact : st.active_file_id with _ | fid
  · have hsame : ensureEmbedded st oracle = (st, 0) := by
      unfold ensureEmbedded
      rw [hact]
    rw [hsame]
    exact hinv
  · have hM : (ensureEmbedded st oracle).1 =
        { st with store := { st.store with embeddings :=
            (st.store.embeddings ++ producedRows oracle (missingChunks st fid)) } } := by
      unfold ensureEmbedded
      rw [hact]
    rw [hM]
    have hmiss_sub : (missingChunks st fid).Sublist st.store.chunks :=
      List.filter_sublist _
    have hmiss_ids_nodup :
        ((missingChunks st fid).map Chunk.chunk_id).Nodup :=
      (chunk_ids_nodup hinv).sublist (hmiss_sub.map _)
    have hnew_nodup :
        ((producedRows oracle (missingChunks st fid)).map EmbeddingRow.chunk_id).Nodup :=
      hmiss_ids_nodup.sublist (producedRows_ids_sublist oracle _)
    have hdisj : ∀ cid ∈ st.store.embeddings.map EmbeddingRow.chunk_id,
        cid ∉ (producedRows oracle (missingChunks st fid)).map EmbeddingRow.chunk_id := by
      intro cid hcid hnew
      rcases List.mem_map.mp hnew with ⟨e, he, rfl⟩
      rcases producedRows_mem he with ⟨c, hc, hce⟩
      have hfilter := List.of_mem_filter hc
      simp only [Bool.and_eq_true, Bool.not_eq_true'] at hfilter
      have hnoemb : hasEmbedding st.store c.chunk_id = false := hfilter.2
      rcases List.mem_map.mp hcid with ⟨e', he', hee⟩
      have hany : st.store.embeddings.any (fun x => x.chunk_id == c.chunk_id) = true :=
        List.any_eq_true.mpr ⟨e', he', by simp [hee, hce]⟩
      rw [hasEmbedding] at hnoemb
      rw [hnoemb] at hany
      exact Bool.false_ne_true hany
    refine ⟨hinv.docs, hinv.dtypes, hinv.cowner, hinv.cidx, hinv.cid, ?_, ?_⟩
    · rw [List.map_append]
      exact hinv.enodup.append hnew_nodup hdisj
    · intro e he
      rcases List.mem_append.mp he with h | h
      · exact hinv.efk e h
      · rcases producedRows_mem h with ⟨c, hc, hce⟩
        exact ⟨c, hmiss_sub.mem hc, hce.symm⟩

/-- Every reachable session state satisfies the structural invariant. -/
theorem reachable_storeInv {st : SessionState} (h : Reachable st) : StoreInv st := by
  induction h with
  | init => exact storeInv_init
  | ingest_ok _ hok ih => exact storeInv_ingest ih hok
  | remove_step _ ih => exact storeInv_removeOp ih
  | embed_step oracle _ ih => exact storeInv_ensureEmbedded oracle ih
  | summarize_ok _ hok ih => exact storeInv_summarize ih hok

/-- The four static fallback questions hardcoded in AskQuestions.jsx
(src/unnamed/part_001 and part_002). -/
def defaultQuestions : List String :=
  ["What are the main points of this document?",
   "Can you explain the key findings?",
   "What are the conclusions?",
   "Are there any recommendations mentioned?"]

/-- Outcome of one suggested-questions API attempt as observed by the
client: the endpoint resolved with success true and a question list,
resolved with success false and an error message, or the request threw. -/
inductive ApiOutcome where
  | success (questions : List String)
  | failure (err : String)
  | thrown (msg : String)
  deriving Repr, DecidableEq

/-- Substring test over character lists: true when the pattern occurs
contiguously in the text. -/
def charsMatchAt : List Char → List Char → Bool
  | [], _ => true
  | _ :: _, [] => false
  | p :: ps, c :: cs => p == c && charsMatchAt ps cs

def containsSeq (pat : List Char) : List Char → Bool
  | [] => charsMatchAt pat []
  | c :: cs => charsMatchAt pat (c :: cs) || containsSeq pat cs

/-- The includes check of AskQuestions.jsx: true when the message contains
the text No file uploaded. -/
def mentionsNoFile (e : String) : Bool :=
  containsSeq "No file uploaded".data e.data

/-- Per-attempt retry decision of generateSuggestedQuestions in
AskQuestions.jsx (src/unnamed/part_002): a resolved failure retries when
the error equals or contains No file uploaded and fewer than two retries
have happened; a thrown error retries when its message contains No file
uploaded, under the same bound. -/
def shouldRetryOutcome (attempt : Nat) : ApiOutcome → Bool
  | .success _ => false
  | .failure e => (e == "No file uploaded" || mentionsNoFile e) && attempt < 2
  | .thrown m => mentionsNoFile m && attempt < 2

/-- The delay in milliseconds scheduled by AskQuestions.jsx before the next
retry, written there as 2000 times the attempt number plus one. -/
def retryDelayMs (attempt : Nat) : Nat := 2000 * (attempt + 1)

/-- Run of the generateSuggestedQuestions retry loop of AskQuestions.jsx
(src/unnamed/part_002), fed the sequence of API outcomes the successive
attempts observe.  Returns the final suggested-question list, the number of
API attempts consumed, and the scheduled retry delays in order.  An empty
outcome list means no response ever arrives, in which case no list is ever
set, likewise modelled as the fallback. -/
def genSuggestedRun : Nat → List ApiOutcome → List String × Nat × List Nat
  | _, [] => (defaultQuestions, 0, [])
  | attempt, o :: rest =>
    match o with
    | .success qs => (qs, 1, [])
    | .failure e =>
      if shouldRetryOutcome attempt (.failure e) then
        ((genSuggestedRun (attempt + 1) rest).1,
         (genSuggestedRun (attempt + 1) rest).2.1 + 1,
         retryDelayMs attempt :: (genSuggestedRun (attempt + 1) rest).2.2)
      else (defaultQuestions, 1, [])
    | .thrown m =>
      if shouldRetryOutcome attempt (.thrown m) then
        ((genSuggestedRun (attempt + 1) rest).1,
         (genSuggestedRun (attempt + 1) rest).2.1 + 1,
         retryDelayMs attempt :: (genSuggestedRun (attempt + 1) rest).2.2)
      else (defaultQuestions, 1, [])

/-- The single-attempt handler of the earlier AskQuestions.jsx
(src/unnamed/part_001): any non-success outcome immediately falls back to
the static default questions. -/
def genSuggestedOnce : ApiOutcome → List String
  | .success qs => qs
  | .failure _ => defaultQuestions
  | .thrown _ => defaultQuestions

/-- Outcome of one ask-question attempt in AskQuestions.jsx: a response
with an answer, or a thrown error message. -/
inductive AskOutcome where
  | answered (answer : String)
  | failed (msg : String)
  deriving Repr, DecidableEq

/-- Run of the handleSubmit retry logic of AskQuestions.jsx
(src/unnamed/part_002): one retry is attempted when the error message
contains No file uploaded; otherwise the displayed answer becomes an error
line.  Returns the displayed answer and the attempts consumed. -/
def handleSubmitRun : Nat → List AskOutcome → String × Nat
  | _, [] => ("", 0)
  | attempt, o :: rest =>
    match o with
    | .answered a => (a, 1)
    | .failed m =>
      if mentionsNoFile m && attempt < 1 then
        ((handleSubmitRun (attempt + 1) rest).1,
         (handleSubmitRun (attempt + 1) rest).2 + 1)
      else ("Error: " ++ m, 1)

/-- Result of the client-side upload handler of DocumentInput.jsx: either
the browser alert with no upload request, or the call into the
ingest-by-file callback. -/
inductive UploadStep where
  | alerted (msg : String)
  | calledIngest
  deriving Repr, DecidableEq

/-- The handleFileUpload guard of DocumentInput.jsx: a file whose MIME type
is not application/pdf only triggers an alert and returns without any
upload; otherwise the ingest callback is invoked. -/
def handleFileUploadClient (fileType : String) : UploadStep :=
  if !(fileType == "application/pdf") then .alerted "Please upload a PDF file"
  else .calledIngest

/-- Client file descriptor returned by the upload and analyze-url
endpoints. -/
structure FileInfo where
  file_name : String
  deriving Repr, DecidableEq

/-- State of the top-level app component: the loaded file descriptor, the
displayed summary, and the error banner text. -/
structure AppState where
  fileInfo : Option FileInfo
  summary : String
  error : String
  deriving Repr, DecidableEq

/-- The handleFileUpload handler of the app component: it clears the error,
and on success stores the new file info and clears the summary, on failure
shows the error message. -/
def appHandleFileUpload (st : AppState) (resp : Except String FileInfo) : AppState :=
  match resp with
  | .ok fi => { fileInfo := some fi, summary := "", error := "" }
  | .error m => { st with error := m }

/-- The handleUrlAnalysis handler of the app component, identical in shape
to the upload handler. -/
def appHandleUrlAnalysis (st : AppState) (resp : Except String FileInfo) : AppState :=
  match resp with
  | .ok fi => { fileInfo := some fi, summary := "", error := "" }
  | .error m => { st with error := m }

/-- The handleRemoveFile handler of the app component: on success it clears
the file info and the summary, on failure it shows the error message. -/
def appHandleRemoveFile (st : AppState) (resp : Except String Unit) : AppState :=
  match resp with
  | .ok _ => { st with fileInfo := none, summary := "" }
  | .error m => { st with error := m }

/-- Modelled from the spec: the bounded exponential-backoff retry policy
for transient external-service failures (sections 4.3 and 7); the backend
clients of the extraction, embedding and generation services are not under
src.  The call oracle reports none for a transient failure of the given
attempt.  Returns the first successful result if any, the number of
attempts consumed, and the delays slept between attempts. -/
def retryBackoff {α : Type} : Nat → Nat → Nat → (Nat → Option α) → Option α × Nat × List Nat
  | 0, _, _, _ => (none, 0, [])
  | remaining + 1, attempt, base, call =>
    match call attempt with
    | some a => (some a, 1, [])
    | none =>
      if remaining = 0 then (none, 1, [])
      else
        ((retryBackoff remaining (attempt + 1) base call).1,
         (retryBackoff remaining (attempt + 1) base call).2.1 + 1,
         base * 2 ^ attempt :: (retryBackoff remaining (attempt + 1) base call).2.2)

/-- When no attempt ever resolves successfully, the suggested-questions
loop ends on the static default questions. -/
theorem genSuggestedRun_fallback : ∀ (outs : List ApiOutcome) (attempt : Nat),
    (∀ qs, ApiOutcome.success qs ∉ outs) →
    (genSuggestedRun attempt outs).1 = defaultQuestions
  | [], _, _ => rfl
  | o :: rest, attempt, h => by
    have hrest : ∀ qs, ApiOutcome.success qs ∉ rest :=
      fun qs hm => h qs (List.mem_cons_of_mem _ hm)
    cases o with
    | success qs => exact absurd (List.mem_cons_self _ _) (h qs)
    | failure e =>
      by_cases hr : shouldRetryOutcome attempt (.failure e)
      · simp only [genSuggestedRun, if_pos hr]
        exact genSuggestedRun_fallback rest (attempt + 1) hrest
      · simp only [genSuggestedRun, if_neg hr]
    | thrown m =>
      by_cases hr : shouldRetryOutcome attempt (.thrown m)
      · simp only [genSuggestedRun, if_pos hr]
        exact genSuggestedRun_fallback rest (attempt + 1) hrest
      · simp only [genSuggestedRun, if_neg hr]

/-- When the outcome list delivers a success first, the loop returns the
delivered questions. -/
theorem genSuggestedRun_success (attempt : Nat) (qs : List String)
    (rest : List ApiOutcome) :
    (genSuggestedRun attempt (.success qs :: rest)).1 = qs := rfl

/-- Upper bound on the number of API attempts the suggested-questions loop
performs, as a function of the attempt counter it starts from. -/
theorem genSuggestedRun_attempts : ∀ (outs : List ApiOutcome) (attempt : Nat),
    (genSuggestedRun attempt outs).2.1 ≤ if attempt < 2 then 3 - attempt else 1
  | [], attempt => by
    simp only [genSuggestedRun]
    split <;> omega
  | o :: rest, attempt => by
    cases o with
    | success qs =>
      simp only [genSuggestedRun]
      split <;> omega
    | failure e =>
      by_cases hr : shouldRetryOutcome attempt (.failure e)
      · have hlt : attempt < 2 := by
          simp only [shouldRetryOutcome, Bool.and_eq_true, decide_eq_true_eq] at hr
          exact hr.2
        have ih := genSuggestedRun_attempts rest (attempt + 1)
        simp only [genSuggestedRun, if_pos hr]
        split at ih <;> [skip; skip] <;> rw [if_pos hlt] <;> omega
      · simp only [genSuggestedRun, if_neg hr]
        split <;> omega
    | thrown m =>
      by_cases hr : shouldRetryOutcome attempt (.thrown m)
      · have hlt : attempt < 2 := by
          simp only [shouldRetryOutcome, Bool.and_eq_true, decide_eq_true_eq] at hr
          exact hr.2
        have ih := genSuggestedRun_attempts rest (attempt + 1)
        simp only [genSuggestedRun, if_pos hr]
        split at ih <;> [skip; skip] <;> rw [if_pos hlt] <;> omega
      · simp only [genSuggestedRun, if_neg hr]
        split <;> omega

/-- The delays the suggested-questions loop can schedule, from a given
starting attempt counter. -/
theorem genSuggestedRun_delays : ∀ (outs : List ApiOutcome) (attempt : Nat),
    (genSuggestedRun attempt outs).2.2 = [] ∨
    (attempt < 2 ∧ (genSuggestedRun attempt outs).2.2 = [retryDelayMs attempt]) ∨
    (attempt = 0 ∧
      (genSuggestedRun attempt outs).2.2 = [retryDelayMs 0, retryDelayMs 1])
  | [], attempt => Or.inl rfl
  | o :: rest, attempt => by
    cases o with
    | success qs => exact Or.inl rfl
    | failure e =>
      by_cases hr : shouldRetryOutcome attempt (.failure e)
      · have hlt : attempt < 2 := by
          simp only [shouldRetryOutcome, Bool.and_eq_true, decide_eq_true_eq] at hr
          exact hr.2
        simp only [genSuggestedRun, if_pos hr]
        rcases genSuggestedRun_delays rest (attempt + 1) with h | ⟨h1, h2⟩ | ⟨h1, _⟩
        · exact Or.inr (Or.inl ⟨hlt, by rw [h]⟩)
        · have ha0 : attempt = 0 := by omega
          subst ha0
          exact Or.inr (Or.inr ⟨rfl, by rw [h2]⟩)
        · omega
      · simp only [genSuggestedRun, if_neg hr]
        exact Or.inl trivial
    | thrown m =>
      by_cases hr : shouldRetryOutcome attempt (.thrown m)
      · have hlt : attempt < 2 := by
          simp only [shouldRetryOutcome, Bool.and_eq_true, decide_eq_true_eq] at hr
          exact hr.2
        simp only [genSuggestedRun, if_pos hr]
        rcases genSuggestedRun_delays rest (attempt + 1) with h | ⟨h1, h2⟩ | ⟨h1, _⟩
        · exact Or.inr (Or.inl ⟨hlt, by rw [h]⟩)
        · have ha0 : attempt = 0 := by omega
          subst ha0
          exact Or.inr (Or.inr ⟨rfl, by rw [h2]⟩)
        · omega
      · simp only [genSuggestedRun, if_neg hr]
        exact Or.inl trivial

/-- Upper bound on the attempts of the handleSubmit retry logic. -/
theorem handleSubmitRun_attempts : ∀ (outs : List AskOutcome) (attempt : Nat),
    (handleSubmitRun attempt outs).2 ≤ if attempt < 1 then 2 else 1
  | [], attempt => by
    simp only [handleSubmitRun]
    split <;> omega
  | o :: rest, attempt => by
    cases o with
    | answered a =>
      simp only [handleSubmitRun]
      split <;> omega
    | failed m =>
      by_cases hr : (mentionsNoFile m && decide (attempt < 1)) = true
      · have hlt : attempt < 1 := by
          simp only [Bool.and_eq_true, decide_eq_true_eq] at hr
          exact hr.2
        have ih := handleSubmitRun_attempts rest (attempt + 1)
        simp only [handleSubmitRun, if_pos hr]
        split at ih <;> [skip; skip] <;> rw [if_pos hlt] <;> omega
      · simp only [handleSubmitRun, if_neg hr]
        split <;> omega

/-- The retry policy performs at most the configured number of attempts. -/
theorem retryBackoff_attempts {α : Type} (base : Nat) (call : Nat → Option α) :
    ∀ (n attempt : Nat), (retryBackoff n attempt base call).2.1 ≤ n
  | 0, _ => le_refl 0
  | n + 1, attempt => by
    rcases hc : call attempt with _ | a
    · simp only [retryBackoff, hc]
      by_cases h0 : n = 0
      · rw [if_pos h0]
        show 1 ≤ n + 1
        omega
      · rw [if_neg h0]
        have ih := retryBackoff_attempts base call n (attempt + 1)
        show (retryBackoff n (attempt + 1) base call).2.1 + 1 ≤ n + 1
        omega
    · simp only [retryBackoff, hc]
      omega

/-- When every attempt fails transiently, the retry policy consumes exactly
its attempt budget and then reports the failure to trigger the documented
fallback. -/
theorem retryBackoff_all_fail {α : Type} (base : Nat) (call : Nat → Option α)
    (h : ∀ i, call i = none) :
    ∀ (n attempt : Nat), (retryBackoff n attempt base call).1 = none ∧
      (retryBackoff n attempt base call).2.1 = n
  | 0, _ => ⟨rfl, rfl⟩
  | n + 1, attempt => by
    simp only [retryBackoff, h attempt]
    by_cases h0 : n = 0
    · rw [if_pos h0]
      refine ⟨rfl, ?_⟩
      show 1 = n + 1
      omega
    · rw [if_neg h0]
      have ih := retryBackoff_all_fail base call h n (attempt + 1)
      refine ⟨ih.1, ?_⟩
      show (retryBackoff n (attempt + 1) base call).2.1 + 1 = n + 1
      have h2 := ih.2
      omega

/-- The delays slept by the retry policy form the exponential sequence base
times two to the power of the attempt number. -/
theorem retryBackoff_delays {α : Type} (base : Nat) (call : Nat → Option α) :
    ∀ (n attempt : Nat),
      (retryBackoff n attempt base call).2.2 =
        (List.range (retryBackoff n attempt base call).2.2.length).map
          (fun i => base * 2 ^ (attempt + i))
  | 0, _ => rfl
  | n + 1, attempt => by
    rcases hc : call attempt with _ | a
    · simp only [retryBackoff, hc]
      by_cases h0 : n = 0
      · rw [if_pos h0]
        rfl
      · rw [if_neg h0]
        have ih := retryBackoff_delays base call n (attempt + 1)
        simp only [List.length_cons, List.range_succ_eq_map, List.map_cons,
          List.map_map, Nat.add_zero]
        refine List.cons_eq_cons.mpr ⟨rfl, ?_⟩
        conv_lhs => rw [ih]
        apply List.map_congr_left
        intro i _
        have he : attempt + 1 + i = attempt + Nat.succ i := by omega
        simp only [Function.comp_apply, he]
    · simp only [retryBackoff, hc]
      rfl

/-- Dot product of two rational vectors, componentwise over the common
prefix. -/
def dot : List ℚ → List ℚ → ℚ
  | x :: xs, y :: ys => x * y + dot xs ys
  | _, _ => 0

/-- Squared euclidean norm of a rational vector. -/
def normSq (v : List ℚ) : ℚ := dot v v

theorem normSq_nonneg : ∀ v : List ℚ, 0 ≤ normSq v
  | [] => le_refl 0
  | x :: xs => add_nonneg (mul_self_nonneg x) (normSq_nonneg xs)

/-- A vector of squared norm zero is the zero vector, so its dot product
with anything vanishes. -/
theorem dot_eq_zero_of_normSq_eq_zero :
    ∀ (q v : List ℚ), normSq v = 0 → dot q v = 0
  | [], v, _ => by cases v <;> rfl
  | _ :: _, [], _ => rfl
  | a :: as, x :: xs, h => by
    have hsplit : x * x + normSq xs = 0 := h
    have hx2 : x * x = 0 :=
      le_antisymm (by nlinarith [normSq_nonneg xs]) (mul_self_nonneg x)
    have hx : x = 0 := mul_self_eq_zero.mp hx2
    have hxs : normSq xs = 0 := by linarith
    show a * x + dot as xs = 0
    rw [hx, mul_zero, dot_eq_zero_of_normSq_eq_zero as xs hxs, add_zero]

/-- The similarity score of a chunk vector against the query, with the
factor shared by all chunks left out: the dot product divided by the norm
of the chunk vector, under the convention that division by zero is zero. -/
noncomputable def tScore (q v : List ℚ) : ℝ :=
  ((dot q v : ℚ) : ℝ) / Real.sqrt ((normSq v : ℚ) : ℝ)

/-- Cosine similarity of a chunk vector against the query vector, the
ranking measure of spec section 4.4. -/
noncomputable def cosSim (q v : List ℚ) : ℝ :=
  ((dot q v : ℚ) : ℝ) /
    (Real.sqrt ((normSq v : ℚ) : ℝ) * Real.sqrt ((normSq q : ℚ) : ℝ))

/-- Decidable comparison of cosine similarity against a fixed query:
simGeB q va vb is true exactly when va scores at least as high as vb.
Signs are separated first so that the remaining magnitude comparison can be
squared into rational arithmetic. -/
def simGeB (q va vb : List ℚ) : Bool :=
  if 0 ≤ dot q va then
    if 0 ≤ dot q vb then
      if normSq vb = 0 then true
      else if normSq va = 0 then decide (dot q vb ≤ 0)
      else decide ((dot q vb) ^ 2 * normSq va ≤ (dot q va) ^ 2 * normSq vb)
    else true
  else
    if 0 ≤ dot q vb then false
    else decide ((dot q va) ^ 2 * normSq vb ≤ (dot q vb) ^ 2 * normSq va)

theorem simGeB_iff (q va vb : List ℚ) :
    simGeB q va vb = true ↔ tScore q vb ≤ tScore q va := by
  have hna0 : (0 : ℝ) ≤ ((normSq va : ℚ) : ℝ) := by
    exact_mod_cast normSq_nonneg va
  have hnb0 : (0 : ℝ) ≤ ((normSq vb : ℚ) : ℝ) := by
    exact_mod_cast normSq_nonneg vb
  have hsa0 : (0 : ℝ) ≤ Real.sqrt ((normSq va : ℚ) : ℝ) := Real.sqrt_nonneg _
  have hsb0 : (0 : ℝ) ≤ Real.sqrt ((normSq vb : ℚ) : ℝ) := Real.sqrt_nonneg _
  unfold simGeB tScore
  by_cases ha : 0 ≤ dot q va
  · rw [if_pos ha]
    have hda0 : (0 : ℝ) ≤ ((dot q va : ℚ) : ℝ) := by exact_mod_cast ha
    have hta : 0 ≤ ((dot q va : ℚ) : ℝ) / Real.sqrt ((normSq va : ℚ) : ℝ) :=
      div_nonneg hda0 hsa0
    by_cases hb : 0 ≤ dot q vb
    · rw [if_pos hb]
      by_cases hnb : normSq vb = 0
      · rw [if_pos hnb]
        have hdb : dot q vb = 0 := dot_eq_zero_of_normSq_eq_zero q vb hnb
        simp only [hdb, Rat.cast_zero, zero_div, true_iff]
        exact hta
      · rw [if_neg hnb]
        have hnbpos : (0 : ℝ) < ((normSq vb : ℚ) : ℝ) := by
          rcases lt_or_eq_of_le hnb0 with h | h
          · exact h
          · exact absurd (by exact_mod_cast h.symm) hnb
        have hsbpos : (0 : ℝ) < Real.sqrt ((normSq vb : ℚ) : ℝ) :=
          Real.sqrt_pos.mpr hnbpos
        by_cases hna : normSq va = 0
        · rw [if_pos hna]
          have hda : dot q va = 0 := dot_eq_zero_of_normSq_eq_zero q va hna
          have hta0 : ((dot q va : ℚ) : ℝ) / Real.sqrt ((normSq va : ℚ) : ℝ) = 0 := by
            rw [hda]
            simp
          rw [hta0, decide_eq_true_eq]
          rw [div_nonpos_iff]
          constructor
          · intro h
            right
            constructor
            · exact_mod_cast h
            · exact le_of_lt hsbpos
          · rintro (⟨h1, h2⟩ | ⟨h1, h2⟩)
            · have : Real.sqrt ((normSq vb : ℚ) : ℝ) = 0 := le_antisymm h2 hsb0
              exact absurd this (ne_of_gt hsbpos)
            · exact_mod_cast h1
        · rw [if_neg hna]
          have hnapos : (0 : ℝ) < ((normSq va : ℚ) : ℝ) := by
            rcases lt_or_eq_of_le hna0 with h | h
            · exact h
            · exact absurd (by exact_mod_cast h.symm) hna
          have hsapos : (0 : ℝ) < Real.sqrt ((normSq va : ℚ) : ℝ) :=
            Real.sqrt_pos.mpr hnapos
          have hdb0 : (0 : ℝ) ≤ ((dot q vb : ℚ) : ℝ) := by exact_mod_cast hb
          rw [decide_eq_true_eq, div_le_div_iff₀ hsbpos hsapos]
          have hx0 : (0 : ℝ) ≤ ((dot q vb : ℚ) : ℝ) * Real.sqrt ((normSq va : ℚ) : ℝ) :=
            mul_nonneg hdb0 hsa0
          have hy0 : (0 : ℝ) ≤ ((dot q va : ℚ) : ℝ) * Real.sqrt ((normSq vb : ℚ) : ℝ) :=
            mul_nonneg hda0 hsb0
          rw [← pow_le_pow_iff_left₀ hx0 hy0 (two_ne_zero)]
          rw [mul_pow, mul_pow, Real.sq_sqrt hna0, Real.sq_sqrt hnb0]
          constructor
          · intro h
            exact_mod_cast h
          · intro h
            exact_mod_cast h
    · rw [if_neg hb]
      have hnb : normSq vb ≠ 0 := by
        intro h0
        exact hb (le_of_eq (dot_eq_zero_of_normSq_eq_zero q vb h0).symm)
      have hnbpos : (0 : ℝ) < ((normSq vb : ℚ) : ℝ) := by
        rcases lt_or_eq_of_le hnb0 with h | h
        · exact h
        · exact absurd (by exact_mod_cast h.symm) hnb
      have hsbpos : (0 : ℝ) < Real.sqrt ((normSq vb : ℚ) : ℝ) :=
        Real.sqrt_pos.mpr hnbpos
      have hdbneg : ((dot q vb : ℚ) : ℝ) < 0 := by
        have : dot q vb < 0 := lt_of_not_le hb
        exact_mod_cast this
      have htb : ((dot q vb : ℚ) : ℝ) / Real.sqrt ((normSq vb : ℚ) : ℝ) < 0 :=
        div_neg_of_neg_of_pos hdbneg hsbpos
      exact iff_of_true rfl (le_trans (le_of_lt htb) hta)
  · rw [if_neg ha]
    have hna : normSq va ≠ 0 := by
      intro h0
      exact ha (le_of_eq (dot_eq_zero_of_normSq_eq_zero q va h0).symm)
    have hnapos : (0 : ℝ) < ((normSq va : ℚ) : ℝ) := by
      rcases lt_or_eq_of_le hna0 with h | h
      · exact h
      · exact absurd (by exact_mod_cast h.symm) hna
    have hsapos : (0 : ℝ) < Real.sqrt ((normSq va : ℚ) : ℝ) :=
      Real.sqrt_pos.mpr hnapos
    have hdaneg : ((dot q va : ℚ) : ℝ) < 0 := by
      have : dot q va < 0 := lt_of_not_le ha
      exact_mod_cast this
    have hta : ((dot q va : ℚ) : ℝ) / Real.sqrt ((normSq va : ℚ) : ℝ) < 0 :=
      div_neg_of_neg_of_pos hdaneg hsapos
    by_cases hb : 0 ≤ dot q vb
    · rw [if_pos hb]
      have hdb0 : (0 : ℝ) ≤ ((dot q vb : ℚ) : ℝ) := by exact_mod_cast hb
      have htb : 0 ≤ ((dot q vb : ℚ) : ℝ) / Real.sqrt ((normSq vb : ℚ) : ℝ) :=
        div_nonneg hdb0 hsb0
      exact iff_of_false (by simp) (not_le.mpr (lt_of_lt_of_le hta htb))
    · rw [if_neg hb]
      have hnb : normSq vb ≠ 0 := by
        intro h0
        exact hb (le_of_eq (dot_eq_zero_of_normSq_eq_zero q vb h0).symm)
      have hnbpos : (0 : ℝ) < ((normSq vb : ℚ) : ℝ) := by
        rcases lt_or_eq_of_le hnb0 with h | h
        · exact h
        · exact absurd (by exact_mod_cast h.symm) hnb
      have hsbpos : (0 : ℝ) < Real.sqrt ((normSq vb : ℚ) : ℝ) :=
        Real.sqrt_pos.mpr hnbpos
      have hdbneg : ((dot q vb : ℚ) : ℝ) < 0 := by
        have : dot q vb < 0 := lt_of_not_le hb
        exact_mod_cast this
      rw [decide_eq_true_eq, div_le_div_iff₀ hsbpos hsapos]
      have hx0 : (0 : ℝ) ≤ -(((dot q va : ℚ) : ℝ) * Real.sqrt ((normSq vb : ℚ) : ℝ)) := by
        nlinarith
      have hy0 : (0 : ℝ) ≤ -(((dot q vb : ℚ) : ℝ) * Real.sqrt ((normSq va : ℚ) : ℝ)) := by
        nlinarith
      constructor
      · intro h
        have h1 : (((dot q va : ℚ) : ℝ) * Real.sqrt ((normSq vb : ℚ) : ℝ)) ^ 2
            ≤ (((dot q vb : ℚ) : ℝ) * Real.sqrt ((normSq va : ℚ) : ℝ)) ^ 2 := by
          rw [mul_pow, mul_pow, Real.sq_sqrt hna0, Real.sq_sqrt hnb0]
          exact_mod_cast h
        have h2 : (-(((dot q va : ℚ) : ℝ) * Real.sqrt ((normSq vb : ℚ) : ℝ))) ^ 2
            ≤ (-(((dot q vb : ℚ) : ℝ) * Real.sqrt ((normSq va : ℚ) : ℝ))) ^ 2 := by
          rw [neg_sq, neg_sq]
          exact h1
        have h3 := (pow_le_pow_iff_left₀ hx0 hy0 (two_ne_zero)).mp h2
        linarith
      · intro h
        have hneg : -(((dot q va : ℚ) : ℝ) * Real.sqrt ((normSq vb : ℚ) : ℝ))
            ≤ -(((dot q vb : ℚ) : ℝ) * Real.sqrt ((normSq va : ℚ) : ℝ)) := by
          linarith
        have h2 := (pow_le_pow_iff_left₀ hx0 hy0 (two_ne_zero)).mpr hneg
        rw [neg_sq, neg_sq, mul_pow, mul_pow, Real.sq_sqrt hna0, Real.sq_sqrt hnb0] at h2
        exact_mod_cast h2

/-- A query of squared norm zero is the zero vector, so its dot product
with anything vanishes. -/
theorem dot_eq_zero_of_normSq_eq_zero_left :
    ∀ (q v : List ℚ), normSq q = 0 → dot q v = 0
  | [], v, _ => by cases v <;> rfl
  | _ :: _, [], _ => rfl
  | x :: xs, y :: ys, h => by
    have hsplit : x * x + normSq xs = 0 := h
    have hx2 : x * x = 0 :=
      le_antisymm (by nlinarith [normSq_nonneg xs]) (mul_self_nonneg x)
    have hx : x = 0 := mul_self_eq_zero.mp hx2
    have hxs : normSq xs = 0 := by linarith
    show x * y + dot xs ys = 0
    rw [hx, zero_mul, dot_eq_zero_of_normSq_eq_zero_left xs ys hxs, add_zero]

/-- Comparing cosine similarities against a fixed query is the same as
comparing the per-chunk scores: the query-norm factor is shared. -/
theorem cosSim_le_iff (q va vb : List ℚ) :
    cosSim q vb ≤ cosSim q va ↔ tScore q vb ≤ tScore q va := by
  unfold cosSim tScore
  by_cases hq : normSq q = 0
  · have hda : dot q va = 0 := dot_eq_zero_of_normSq_eq_zero_left q va hq
    have hdb : dot q vb = 0 := dot_eq_zero_of_normSq_eq_zero_left q vb hq
    rw [hda, hdb]
    simp
  · have hq0 : (0 : ℝ) ≤ ((normSq q : ℚ) : ℝ) := by exact_mod_cast normSq_nonneg q
    have hqpos : (0 : ℝ) < ((normSq q : ℚ) : ℝ) := by
      rcases lt_or_eq_of_le hq0 with h | h
      · exact h
      · exact absurd (by exact_mod_cast h.symm) hq
    have hsqpos : (0 : ℝ) < Real.sqrt ((normSq q : ℚ) : ℝ) := Real.sqrt_pos.mpr hqpos
    rw [← div_div, ← div_div]
    exact div_le_div_iff_of_pos_right hsqpos

/-- An embedded chunk as ranked by retrieval: its chunk_index and its
embedding vector. -/
structure EmbChunk where
  idx : Nat
  vec : List ℚ
  deriving Repr, DecidableEq

/-- Ranking order of retrieval (spec section 4.4): higher cosine similarity
first, ties broken by the lower chunk_index. -/
def rankLE (q : List ℚ) (a b : EmbChunk) : Bool :=
  simGeB q a.vec b.vec && (!(simGeB q b.vec a.vec) || decide (a.idx ≤ b.idx))

theorem rankLE_iff (q : List ℚ) (a b : EmbChunk) :
    rankLE q a b = true ↔
      (tScore q b.vec ≤ tScore q a.vec ∧
        (tScore q a.vec ≤ tScore q b.vec → a.idx ≤ b.idx)) := by
  unfold rankLE
  rw [Bool.and_eq_true, Bool.or_eq_true, Bool.not_eq_true', decide_eq_true_eq]
  constructor
  · rintro ⟨h1, h2⟩
    refine ⟨(simGeB_iff q a.vec b.vec).mp h1, ?_⟩
    intro hle
    rcases h2 with h2 | h2
    · exact absurd ((simGeB_iff q b.vec a.vec).mpr hle) (by rw [h2]; simp)
    · exact h2
  · rintro ⟨h1, h2⟩
    refine ⟨(simGeB_iff q a.vec b.vec).mpr h1, ?_⟩
    by_cases hba : simGeB q b.vec a.vec = true
    · exact Or.inr (h2 ((simGeB_iff q b.vec a.vec).mp hba))
    · rcases hx : simGeB q b.vec a.vec with _ | _
      · exact Or.inl rfl
      · exact absurd hx hba

theorem rankLE_total (q : List ℚ) (a b : EmbChunk) :
    rankLE q a b = true ∨ rankLE q b a = true := by
  rcases le_total (tScore q b.vec) (tScore q a.vec) with h | h
  · by_cases h' : tScore q a.vec ≤ tScore q b.vec
    · rcases Nat.le_total a.idx b.idx with hi | hi
      · exact Or.inl ((rankLE_iff q a b).mpr ⟨h, fun _ => hi⟩)
      · exact Or.inr ((rankLE_iff q b a).mpr ⟨h', fun _ => hi⟩)
    · exact Or.inl ((rankLE_iff q a b).mpr ⟨h, fun hc => absurd hc h'⟩)
  · by_cases h' : tScore q b.vec ≤ tScore q a.vec
    · rcases Nat.le_total a.idx b.idx with hi | hi
      · exact Or.inl ((rankLE_iff q a b).mpr ⟨h', fun _ => hi⟩)
      · exact Or.inr ((rankLE_iff q b a).mpr ⟨h, fun _ => hi⟩)
    · exact Or.inr ((rankLE_iff q b a).mpr ⟨h, fun hc => absurd hc h'⟩)

theorem rankLE_trans (q : List ℚ) (a b c : EmbChunk)
    (hab : rankLE q a b = true) (hbc : rankLE q b c = true) :
    rankLE q a c = true := by
  obtain ⟨h1, h2⟩ := (rankLE_iff q a b).mp hab
  obtain ⟨h3, h4⟩ := (rankLE_iff q b c).mp hbc
  refine (rankLE_iff q a c).mpr ⟨le_trans h3 h1, ?_⟩
  intro hca
  have hba : tScore q a.vec ≤ tScore q b.vec := le_trans hca h3
  have hcb : tScore q b.vec ≤ tScore q c.vec := le_trans h1 hca
  exact le_trans (h2 hba) (h4 hcb)

/-- The embedded chunks of one document, paired with their vectors: the
rows the vector store can rank for that file_id.  Chunks without an
embedding are simply absent, so retrieval tolerates partial coverage. -/
def candidates (st : SessionState) (fid : String) : List EmbChunk :=
  st.store.chunks.filterMap (fun c =>
    if c.file_id == fid then
      (st.store.embeddings.find? (fun e => e.chunk_id == c.chunk_id)).map
        (fun e => { idx := c.chunk_index, vec := e.vector })
    else none)

/-- Modelled from the spec: the similarity ranking of the vector store
(section 4.4) is implemented by the pgvector index of schema.sql and is not
under src.  All candidate chunks of the document sorted by descending
cosine similarity, ties broken by ascending chunk_index. -/
def rankAll (st : SessionState) (fid : String) (q : List ℚ) : List EmbChunk :=
  List.insertionSort (fun a b => rankLE q a b = true) (candidates st fid)

/-- Modelled from the spec: top_k returns the k best-ranked chunks of the
document for the query vector (section 4.4). -/
def topK (st : SessionState) (fid : String) (q : List ℚ) (k : Nat) : List EmbChunk :=
  (rankAll st fid q).take k

theorem rankAll_perm (st : SessionState) (fid : String) (q : List ℚ) :
    (rankAll st fid q).Perm (candidates st fid) :=
  List.perm_insertionSort _ _

theorem rankAll_sorted (st : SessionState) (fid : String) (q : List ℚ) :
    (rankAll st fid q).Pairwise (fun a b => rankLE q a b = true) := by
  have h := @List.sorted_insertionSort EmbChunk
    (fun a b => rankLE q a b = true) (fun a b => instDecidableEqBool _ _)
    ⟨fun a b => rankLE_total q a b⟩ ⟨fun a b c => rankLE_trans q a b c⟩
    (candidates st fid)
  exact h

/-- The ranked list is pairwise ordered by descending cosine similarity
with ties by ascending chunk index. -/
theorem rankAll_pairwise_cos (st : SessionState) (fid : String) (q : List ℚ) :
    (rankAll st fid q).Pairwise (fun a b =>
      cosSim q b.vec ≤ cosSim q a.vec ∧
        (cosSim q a.vec = cosSim q b.vec → a.idx ≤ b.idx)) := by
  refine (rankAll_sorted st fid q).imp ?_
  intro a b hab
  obtain ⟨h1, h2⟩ := (rankLE_iff q a b).mp hab
  refine ⟨(cosSim_le_iff q a.vec b.vec).mpr h1, fun heq => h2 ?_⟩
  exact (cosSim_le_iff q b.vec a.vec).mp (le_of_eq heq)

/-- Every chunk returned by top_k scores at least as high as every chunk
left out. -/
theorem topK_dominates (st : SessionState) (fid : String) (q : List ℚ) (k : Nat) :
    ∀ a ∈ topK st fid q k, ∀ b ∈ (rankAll st fid q).drop k,
      cosSim q b.vec ≤ cosSim q a.vec := by
  intro a ha b hb
  have hp := rankAll_pairwise_cos st fid q
  have hsplit : (rankAll st fid q).take k ++ (rankAll st fid q).drop k
      = rankAll st fid q := List.take_append_drop k _
  rw [← hsplit] at hp
  exact ((List.pairwise_append.mp hp).2.2 a ha b hb).1

theorem topK_length (st : SessionState) (fid : String) (q : List ℚ) (k : Nat) :
    (topK st fid q k).length = min k (candidates st fid).length := by
  unfold topK
  rw [List.length_take, (rankAll_perm st fid q).length_eq]

/-- A concrete pdf source used by the witnesses. -/
def sampleSrc : Source :=
  { file_id := "doc-1", original_filename := "a.pdf", source_type := "pdf",
    source_path := "bucket/a.pdf", text := "hello world".data }

/-- The session state after ingesting the sample source into the empty
session. -/
def exState : SessionState :=
  match ingest initState sampleSrc with
  | .ok st => st
  | .error _ => initState

theorem ingest_sample : ingest initState sampleSrc = .ok exState := rfl

theorem exState_reachable : Reachable exState :=
  Reachable.ingest_ok Reachable.init ingest_sample

/-- A nonempty document list mapping onto a single file_id contains a
document carrying it. -/
theorem exists_doc_of_map_eq {l : List Document} {x : String}
    (h : l.map Document.file_id = [x]) : ∃ d ∈ l, d.file_id = x := by
  cases l with
  | nil => simp at h
  | cons d rest =>
    simp only [List.map_cons, List.cons.injEq] at h
    exact ⟨d, List.mem_cons_self _ _, h.1⟩

/-- C1: in every reachable persisted state at most one document exists for
the session and no chunks or embeddings row is orphaned; and deleting a
documents row removes, in the same transition, every chunks row with that
file_id and every embeddings row attached to those chunks. -/
theorem c1_single_document_no_orphans :
    (∀ st : SessionState, Reachable st →
      st.store.documents.length ≤ 1 ∧
      (∀ c ∈ st.store.chunks, ∃ d ∈ st.store.documents, d.file_id = c.file_id) ∧
      (∀ e ∈ st.store.embeddings, ∃ c ∈ st.store.chunks, c.chunk_id = e.chunk_id)) ∧
    (∀ (s : Store) (fid : String),
      (∀ d : Document, d ∈ (cascadeDeleteDocument s fid).documents ↔
        d ∈ s.documents ∧ d.file_id ≠ fid) ∧
      (∀ c : Chunk, c ∈ (cascadeDeleteDocument s fid).chunks ↔
        c ∈ s.chunks ∧ c.file_id ≠ fid) ∧
      (∀ e : EmbeddingRow, e ∈ (cascadeDeleteDocument s fid).embeddings ↔
        e ∈ s.embeddings ∧
          ∀ c ∈ s.chunks, c.file_id = fid → c.chunk_id ≠ e.chunk_id)) := by
  constructor
  · intro st hreach
    have hinv := reachable_storeInv hreach
    refine ⟨?_, ?_, hinv.efk⟩
    · have hopt : ∀ o : Option String, o.toList.length ≤ 1 := by
        intro o
        cases o <;> simp [Option.toList]
      have hlen := congrArg List.length hinv.docs
      rw [List.length_map] at hlen
      rw [hlen]
      exact hopt _
    · intro c hc
      have hact := hinv.cowner c hc
      have hdocs := hinv.docs
      rw [hact] at hdocs
      simp only [Option.toList] at hdocs
      exact exists_doc_of_map_eq hdocs
  · intro s fid
    refine ⟨?_, ?_, ?_⟩
    · intro d
      simp [cascadeDeleteDocument, List.mem_filter]
    · intro c
      simp [cascadeDeleteDocument, List.mem_filter]
    · intro e
      simp only [cascadeDeleteDocument, List.mem_filter, Bool.not_eq_true']
      constructor
      · rintro ⟨he, hdead⟩
        refine ⟨he, ?_⟩
        intro c hc hfid heq
        have hcontra : chunkIsDead s fid e.chunk_id = true :=
          List.any_eq_true.mpr ⟨c, hc, by simp [hfid, heq]⟩
        rw [hdead] at hcontra
        exact Bool.false_ne_true hcontra
      · rintro ⟨he, hall⟩
        refine ⟨he, ?_⟩
        rcases hx : chunkIsDead s fid e.chunk_id with _ | _
        · rfl
        · rcases List.any_eq_true.mp hx with ⟨c, hc, hcond⟩
          simp only [Bool.and_eq_true, beq_iff_eq] at hcond
          exact absurd hcond.2 (hall c hc hcond.1)

theorem c1_single_document_no_orphans_witness :
    Reachable exState ∧
      (exState.store.documents.length ≤ 1 ∧
      (∀ c ∈ exState.store.chunks, ∃ d ∈ exState.store.documents,
        d.file_id = c.file_id) ∧
      (∀ e ∈ exState.store.embeddings, ∃ c ∈ exState.store.chunks,
        c.chunk_id = e.chunk_id)) :=
  ⟨exState_reachable, c1_single_document_no_orphans.1 exState exState_reachable⟩

/-- C2: the client code of AskQuestions.jsx does contain a retry loop
working around the document-not-yet-available race: when the
suggested-questions call fails with No file uploaded at attempt zero, the
loop schedules a 2000 ms delay and performs a second API attempt instead
of there being no retry at all. -/
theorem c2_retry_loop_present :
    genSuggestedRun 0
        [ApiOutcome.failure "No file uploaded", ApiOutcome.success ["q1"]]
      = (["q1"], 2, [2000]) := rfl

/-- C3: whenever every suggested-questions attempt fails, by an error
response or a thrown error, the client ends with the static fallback list,
which is a nonempty non-error question list; the earlier single-attempt
component behaves likewise. -/
theorem c3_fallback_on_failure :
    (∀ (outs : List ApiOutcome) (attempt : Nat),
      (∀ qs, ApiOutcome.success qs ∉ outs) →
      (genSuggestedRun attempt outs).1 = defaultQuestions) ∧
    (∀ o : ApiOutcome, (∀ qs, o ≠ ApiOutcome.success qs) →
      genSuggestedOnce o = defaultQuestions) ∧
    defaultQuestions ≠ [] := by
  refine ⟨genSuggestedRun_fallback, ?_, by simp [defaultQuestions]⟩
  intro o h
  cases o with
  | success qs => exact absurd rfl (h qs)
  | failure e => rfl
  | thrown m => rfl

theorem c3_fallback_on_failure_witness :
    (∀ qs, ApiOutcome.success qs ∉
        [ApiOutcome.failure "server error", ApiOutcome.thrown "timeout"]) ∧
    (genSuggestedRun 0
        [ApiOutcome.failure "server error", ApiOutcome.thrown "timeout"]).1
      = defaultQuestions :=
  ⟨fun qs h => by simp at h,
   c3_fallback_on_failure.1 _ 0 (fun qs h => by simp at h)⟩

/-- C4: in every reachable state the (file_id, chunk_index) pairs of the
chunks table are pairwise distinct, and for every file_id the chunk_index
values of its chunks form the contiguous 0-based range with no gaps. -/
theorem c4_chunk_indices_contiguous :
    ∀ st : SessionState, Reachable st →
      (st.store.chunks.map (fun c => (c.file_id, c.chunk_index))).Nodup ∧
      ∀ fid : String,
        (st.store.chunks.filter (fun c => c.file_id == fid)).map Chunk.chunk_index
          = List.range
              ((st.store.chunks.filter (fun c => c.file_id == fid)).length) := by
  intro st hreach
  have hinv := reachable_storeInv hreach
  constructor
  · have hmapeq : st.store.chunks.map (fun c => (c.file_id, c.chunk_index))
        = st.store.chunks.map Chunk.chunk_id :=
      List.map_congr_left (fun c hc => (hinv.cid c hc).symm)
    rw [hmapeq]
    exact chunk_ids_nodup hinv
  · intro fid
    by_cases hall : ∀ c ∈ st.store.chunks, c.file_id = fid
    · rw [List.filter_eq_self.mpr (fun c hc => by simp [hall c hc])]
      rw [hinv.cidx]
    · push_neg at hall
      obtain ⟨c0, hc0, hne⟩ := hall
      have hnone : ∀ c ∈ st.store.chunks, c.file_id ≠ fid := by
        intro c hc heq
        have h1 := hinv.cowner c hc
        have h2 := hinv.cowner c0 hc0
        rw [h1] at h2
        have : c.file_id = c0.file_id := by
          exact (Option.some.injEq _ _).mp h2
        rw [← this] at hne
        exact hne heq
      rw [List.filter_eq_nil_iff.mpr (fun c hc => by simp [hnone c hc])]
      rfl

theorem c4_chunk_indices_contiguous_witness :
    Reachable exState ∧
      ((exState.store.chunks.map (fun c => (c.file_id, c.chunk_index))).Nodup ∧
      ∀ fid : String,
        (exState.store.chunks.filter (fun c => c.file_id == fid)).map
            Chunk.chunk_index
          = List.range
              ((exState.store.chunks.filter (fun c => c.file_id == fid)).length)) :=
  ⟨exState_reachable, c4_chunk_indices_contiguous exState exState_reachable⟩

/-- A list whose key projection is duplicate free holds at most one element
with any given key. -/
theorem filter_key_length_le_one {α β : Type} [BEq β] [LawfulBEq β]
    (f : α → β) (x : β) :
    ∀ l : List α, (l.map f).Nodup → (l.filter (fun a => f a == x)).length ≤ 1
  | [], _ => by simp
  | a :: l, h => by
    have hparts : f a ∉ l.map f ∧ (l.map f).Nodup := by
      rw [List.map_cons, List.nodup_cons] at h
      exact h
    by_cases hfa : f a = x
    · have hfilter : l.filter (fun b => f b == x) = [] := by
        apply List.filter_eq_nil_iff.mpr
        intro b hb
        simp only [beq_iff_eq]
        intro hbx
        have hmem : f b ∈ l.map f := List.mem_map_of_mem f hb
        rw [hbx, ← hfa] at hmem
        exact hparts.1 hmem
      simp [List.filter_cons, hfa, hfilter]
    · have ih := filter_key_length_le_one f x l hparts.2
      simpa [List.filter_cons, hfa] using ih

/-- C5: in every reachable state a chunk has at most one embeddings row;
the embedding coordinator leaves documents and chunks untouched and keeps
every previously committed embedding, so missing embeddings are a tolerated
status rather than an error; and retrieval stays well defined under partial
coverage, returning the k best of however many chunks are embedded. -/
theorem c5_zero_or_one_embedding :
    (∀ st : SessionState, Reachable st → ∀ cid : String × Nat,
      (st.store.embeddings.filter (fun e => e.chunk_id == cid)).length ≤ 1) ∧
    (∀ (st : SessionState) (oracle : Chunk → Option (List ℚ)),
      (ensureEmbedded st oracle).1.store.chunks = st.store.chunks ∧
      (ensureEmbedded st oracle).1.store.documents = st.store.documents ∧
      ∀ e ∈ st.store.embeddings,
        e ∈ (ensureEmbedded st oracle).1.store.embeddings) ∧
    (∀ (st : SessionState) (fid : String) (q : List ℚ) (k : Nat),
      (topK st fid q k).length = min k (candidates st fid).length) := by
  refine ⟨?_, ?_, fun st fid q k => topK_length st fid q k⟩
  · intro st hreach cid
    have hinv := reachable_storeInv hreach
    exact filter_key_length_le_one EmbeddingRow.chunk_id cid
      st.store.embeddings hinv.enodup
  · intro st oracle
    rcases hact : st.active_file_id with _ | fid
    · have hsame : ensureEmbedded st oracle = (st, 0) := by
        unfold ensureEmbedded
        rw [hact]
      rw [hsame]
      exact ⟨rfl, rfl, fun e he => he⟩
    · have hM : (ensureEmbedded st oracle).1 =
          { st with store := { st.store with embeddings :=
              (st.store.embeddings
                ++ producedRows oracle (missingChunks st fid)) } } := by
        unfold ensureEmbedded
        rw [hact]
      rw [hM]
      exact ⟨rfl, rfl, fun e he => List.mem_append_left _ he⟩

theorem c5_zero_or_one_embedding_witness :
    Reachable exState ∧
      ∀ cid : String × Nat,
        (exState.store.embeddings.filter
          (fun e => e.chunk_id == cid)).length ≤ 1 :=
  ⟨exState_reachable, c5_zero_or_one_embedding.1 exState exState_reachable⟩

/-- C6: changing the active document always invalidates the cached
summary: the client clears the displayed summary on a successful upload,
url analysis or removal, removal also drops the file descriptor; the
backend remove transition resets the session to Empty with the document
cascade deleted and the summary cleared; and a successful ingest that
changes the active document leaves no cached summary. -/
theorem c6_summary_invalidated :
    (∀ (st : AppState) (fi : FileInfo),
      (appHandleFileUpload st (.ok fi)).summary = "" ∧
      (appHandleUrlAnalysis st (.ok fi)).summary = "" ∧
      (appHandleRemoveFile st (.ok ())).summary = "" ∧
      (appHandleRemoveFile st (.ok ())).fileInfo = none) ∧
    (∀ st : SessionState, Reachable st →
      (removeOp st).summary = none ∧
      (removeOp st).active_file_id = none ∧
      (removeOp st).store.documents = [] ∧
      (removeOp st).store.chunks = [] ∧
      (removeOp st).store.embeddings = []) ∧
    (∀ (st st' : SessionState) (s : Source),
      ingest st s = .ok st' → st'.active_file_id ≠ st.active_file_id →
      st'.summary = none) := by
  refine ⟨fun st fi => ⟨rfl, rfl, rfl, rfl⟩, ?_, ?_⟩
  · intro st hreach
    have hbase := baseStore_empty (reachable_storeInv hreach)
    refine ⟨rfl, rfl, ?_, ?_, ?_⟩ <;>
      simp [removeOp, hbase]
  · intro st st' s h hne
    rcases hn : normalizeSource s with e | doc
    · simp only [ingest, hn] at h
      exact absurd h (by simp)
    · simp only [ingest, hn] at h
      by_cases hm : activeHashMatches st doc
      · rw [if_pos hm] at h
        injection h with h
        subst h
        exact absurd rfl hne
      · rw [if_neg hm] at h
        injection h with h
        subst h
        rfl

theorem c6_summary_invalidated_witness :
    (Reachable exState ∧ (removeOp exState).summary = none) ∧
    (ingest initState sampleSrc = .ok exState ∧
      exState.active_file_id ≠ initState.active_file_id ∧
      exState.summary = none) :=
  ⟨⟨exState_reachable,
    (c6_summary_invalidated.2.1 exState exState_reachable).1⟩,
   ⟨ingest_sample, by decide,
    c6_summary_invalidated.2.2 initState exState sampleSrc ingest_sample
      (by decide)⟩⟩

/-- C7: ingestion rejects a source whose type is neither pdf nor url with
UnsupportedSource before any persistence, rejects empty or whitespace-only
extracted text of a supported source with ExtractionEmpty, and no reachable
state holds a documents row whose source_type is anything but pdf or
url. -/
theorem c7_source_validation :
    (∀ (st : SessionState) (s : Source),
      s.source_type ≠ "pdf" → s.source_type ≠ "url" →
      ingest st s = .error .UnsupportedSource) ∧
    (∀ (st : SessionState) (s : Source),
      (s.source_type = "pdf" ∨ s.source_type = "url") →
      isWhitespaceOnly s.text = true →
      ingest st s = .error .ExtractionEmpty) ∧
    (∀ st : SessionState, Reachable st →
      ∀ d ∈ st.store.documents,
        d.source_type = "pdf" ∨ d.source_type = "url") := by
  refine ⟨?_, ?_, fun st hreach => (reachable_storeInv hreach).dtypes⟩
  · intro st s h1 h2
    have hn : normalizeSource s = .error .UnsupportedSource := by
      unfold normalizeSource
      rw [if_neg]
      simp [h1, h2]
    simp [ingest, hn]
  · intro st s h1 h2
    have hn : normalizeSource s = .error .ExtractionEmpty := by
      unfold normalizeSource
      rw [if_pos, if_pos h2]
      rcases h1 with h | h <;> simp [h]
    simp [ingest, hn]

theorem c7_source_validation_witness :
    ("docx" ≠ "pdf" ∧ "docx" ≠ "url" ∧
      ingest initState { sampleSrc with source_type := "docx" }
        = .error .UnsupportedSource) ∧
    (("pdf" : String) = "pdf" ∧
      isWhitespaceOnly ("  " : String).data = true ∧
      ingest initState { sampleSrc with text := ("  " : String).data }
        = .error .ExtractionEmpty) ∧
    (Reachable exState ∧
      ∀ d ∈ exState.store.documents,
        d.source_type = "pdf" ∨ d.source_type = "url") :=
  ⟨⟨by decide, by decide,
    c7_source_validation.1 initState _ (by decide) (by decide)⟩,
   ⟨rfl, by decide,
    c7_source_validation.2.1 initState _ (Or.inl rfl) (by decide)⟩,
   ⟨exState_reachable,
    c7_source_validation.2.2 exState exState_reachable⟩⟩

/-- C8: transient external-service failures are retried under a bounded
attempt budget with exponentially growing delays, and every retry loop
terminates: the backoff policy consumes at most its budget, sleeps delays
equal to base times two to the attempt index, and when every attempt fails
it exhausts exactly its budget before handing control to the documented
fallback; the client-side loops in AskQuestions.jsx are likewise bounded,
with delays 2000 then 4000 milliseconds. -/
theorem c8_bounded_backoff :
    (∀ (α : Type) (n attempt base : Nat) (call : Nat → Option α),
      (retryBackoff n attempt base call).2.1 ≤ n) ∧
    (∀ (α : Type) (n base : Nat) (call : Nat → Option α),
      (retryBackoff n 0 base call).2.2 =
        (List.range (retryBackoff n 0 base call).2.2.length).map
          (fun i => base * 2 ^ i)) ∧
    (∀ (α : Type) (n base : Nat) (call : Nat → Option α),
      (∀ i, call i = none) →
      (retryBackoff n 0 base call).1 = none ∧
      (retryBackoff n 0 base call).2.1 = n) ∧
    (∀ outs : List ApiOutcome,
      (genSuggestedRun 0 outs).2.1 ≤ 3 ∧
      ((genSuggestedRun 0 outs).2.2 = [] ∨
        (genSuggestedRun 0 outs).2.2 = [2000] ∨
        (genSuggestedRun 0 outs).2.2 = [2000, 4000])) ∧
    (∀ outs : List AskOutcome, (handleSubmitRun 0 outs).2 ≤ 2) := by
  refine ⟨?_, ?_, ?_, ?_, ?_⟩
  · intro α n attempt base call
    exact retryBackoff_attempts base call n attempt
  · intro α n base call
    have h := retryBackoff_delays base call n 0
    have h2 : (List.range ((retryBackoff n 0 base call).2.2.length)).map
          (fun i => base * 2 ^ (0 + i))
        = (List.range ((retryBackoff n 0 base call).2.2.length)).map
          (fun i => base * 2 ^ i) := by
      apply List.map_congr_left
      intro i _
      rw [Nat.zero_add]
    exact h.trans h2
  · intro α n base call hfail
    exact retryBackoff_all_fail base call hfail n 0
  · intro outs
    constructor
    · have h := genSuggestedRun_attempts outs 0
      rw [if_pos (by omega)] at h
      omega
    · rcases genSuggestedRun_delays outs 0 with h | ⟨_, h⟩ | ⟨_, h⟩
      · exact Or.inl h
      · exact Or.inr (Or.inl (by rw [h]; rfl))
      · exact Or.inr (Or.inr (by rw [h]; rfl))
  · intro outs
    have h := handleSubmitRun_attempts outs 0
    rw [if_pos (by omega)] at h
    omega

theorem c8_bounded_backoff_witness :
    (∀ i, (fun _ : Nat => (none : Option Nat)) i = none) ∧
      ((retryBackoff 3 0 2000 (fun _ : Nat => (none : Option Nat))).1 = none ∧
       (retryBackoff 3 0 2000 (fun _ : Nat => (none : Option Nat))).2.1 = 3) :=
  ⟨fun _ => rfl,
   c8_bounded_backoff.2.2.1 Nat 3 2000 (fun _ => none) (fun _ => rfl)⟩

/-- C9: top_k returns the k embedded chunks of the document with the
highest cosine similarity to the query vector, in descending similarity
order, ties broken by ascending chunk_index: the full ranking is a
permutation of the candidate chunks, pairwise ordered that way, top_k is
its length-k prefix with length min k over the candidates, and every
returned chunk scores at least as high as every chunk left out. -/
theorem c9_topK_ranking :
    ∀ (st : SessionState) (fid : String) (q : List ℚ) (k : Nat),
      (rankAll st fid q).Perm (candidates st fid) ∧
      (rankAll st fid q).Pairwise (fun a b =>
        cosSim q b.vec ≤ cosSim q a.vec ∧
          (cosSim q a.vec = cosSim q b.vec → a.idx ≤ b.idx)) ∧
      topK st fid q k = (rankAll st fid q).take k ∧
      (topK st fid q k).length = min k (candidates st fid).length ∧
      (∀ a ∈ topK st fid q k, ∀ b ∈ (rankAll st fid q).drop k,
        cosSim q b.vec ≤ cosSim q a.vec) :=
  fun st fid q k =>
    ⟨rankAll_perm st fid q, rankAll_pairwise_cos st fid q, rfl,
     topK_length st fid q k, topK_dominates st fid q k⟩

/-- C10: the client-side upload handler never submits a non-pdf file: a
MIME type other than application/pdf only raises the alert and returns
without calling the ingest callback, and the ingest callback is reached
only for application/pdf. -/
theorem c10_pdf_only_upload :
    (∀ t : String, t ≠ "application/pdf" →
      handleFileUploadClient t = .alerted "Please upload a PDF file") ∧
    (∀ t : String, handleFileUploadClient t = .calledIngest →
      t = "application/pdf") := by
  constructor
  · intro t ht
    simp [handleFileUploadClient, ht]
  · intro t h
    by_cases ht : t = "application/pdf"
    · exact ht
    · simp [handleFileUploadClient, ht] at h

theorem c10_pdf_only_upload_witness :
    ("text/plain" : String) ≠ "application/pdf" ∧
      handleFileUploadClient "text/plain"
        = .alerted "Please upload a PDF file" :=
  ⟨by decide, c10_pdf_only_upload.1 "text/plain" (by decide)⟩

theorem c9_topK_ranking_witness :
    (rankAll exState "doc-1" [1]).Perm (candidates exState "doc-1") ∧
      (rankAll exState "doc-1" [1]).Pairwise (fun a b =>
        cosSim [1] b.vec ≤ cosSim [1] a.vec ∧
          (cosSim [1] a.vec = cosSim [1] b.vec → a.idx ≤ b.idx)) ∧
      topK exState "doc-1" [1] 3 = (rankAll exState "doc-1" [1]).take 3 ∧
      (topK exState "doc-1" [1] 3).length
        = min 3 (candidates exState "doc-1").length ∧
      (∀ a ∈ topK exState "doc-1" [1] 3,
        ∀ b ∈ (rankAll exState "doc-1" [1]).drop 3,
          cosSim [1] b.vec ≤ cosSim [1] a.vec) :=
  c9_topK_ranking exState "doc-1" [1] 3
